import Mathlib

/-!
Verification of the two core components of `build_resource_pack.py`:
the selective `server.properties` patcher (`update_server_properties`)
and the pack-identity deriver (`generate_pack_uuid`).

Python strings are embedded as `List Char`; a "line" is one element of
Python's `f.readlines()` result (usually ending in a newline character).
The managed mapping (a Python `dict` with insertion order) is embedded as
an association list with distinct keys.
-/

/-- A Python string / one line of the properties document. -/
abbrev Line := List Char

/-- Convert a Lean string literal to the embedded representation. -/
def str (s : String) : Line := s.data

/-- The whitespace test of CPython `str.strip()` (`Py_UNICODE_ISSPACE`):
the ASCII controls 0x09-0x0D and 0x1C-0x1F, the space, and the Unicode
whitespace code points 0x85, 0xA0, 0x1680, 0x2000-0x200A, 0x2028, 0x2029,
0x202F, 0x205F and 0x3000. -/
def pyWS (c : Char) : Bool :=
  (9 ≤ c.toNat && c.toNat ≤ 13) || (28 ≤ c.toNat && c.toNat ≤ 32) ||
  c.toNat = 133 || c.toNat = 160 || c.toNat = 5760 ||
  (8192 ≤ c.toNat && c.toNat ≤ 8202) || c.toNat = 8232 || c.toNat = 8233 ||
  c.toNat = 8239 || c.toNat = 8287 || c.toNat = 12288

/-- Python `s.strip()`: drop whitespace from both ends. -/
def pyStrip (s : Line) : Line :=
  ((s.dropWhile pyWS).reverse.dropWhile pyWS).reverse

/-- Python `s.split('=', 1)[0]`: the text before the first `'='`
(the whole string when there is no `'='`). -/
def beforeEq (s : Line) : Line := s.takeWhile (fun c => !(c = '='))

/-- First-match lookup in an association list (Python `dict` access;
the embedded dicts have distinct keys, so first-match agrees). -/
def alookup (m : List (Line × Line)) (k : Line) : Option Line :=
  match m with
  | [] => none
  | (a, b) :: rest => if a = k then some b else alookup rest k

/-- The line `f"{key}={value}\n"` emitted for a managed key. -/
def emitLine (k v : Line) : Line := k ++ '=' :: (v ++ ['\n'])

/-- One iteration of the `for line in lines` loop of
`update_server_properties` (src/build_resource_pack.py lines 671-691):
the accumulator carries (`new_lines`, `updated_keys`); membership in the
`updated_keys` list embeds membership in the Python set. -/
def passStep (managed : List (Line × Line)) (acc : List Line × List Line)
    (line : Line) : List Line × List Line :=
  let stripped := pyStrip line
  if stripped.isEmpty || stripped.head? = some '#' then
    (acc.1 ++ [line], acc.2)
  else if stripped.contains '=' then
    let key := pyStrip (beforeEq stripped)
    match alookup managed key with
    | some v => (acc.1 ++ [emitLine key v], acc.2 ++ [key])
    | none => (acc.1 ++ [line], acc.2)
  else
    (acc.1 ++ [line], acc.2)

/-- The pure line transformation of `update_server_properties`
(src/build_resource_pack.py lines 668-696): the single left-to-right pass
followed by appending each managed key that was not updated, in the
mapping's iteration order. -/
def update_server_properties_lines (managed : List (Line × Line))
    (lines : List Line) : List Line :=
  let p := lines.foldl (passStep managed) ([], [])
  p.1 ++ (managed.filter (fun kv => !(p.2.contains kv.1))).map
    (fun kv => emitLine kv.1 kv.2)

/-- The key a line is parsed to by the pass, when it is a key-value line:
`none` for blank lines, comments and lines without `'='`; otherwise
`some` of the trimmed text before the first `'='` of the stripped line. -/
def lineKeyOf (line : Line) : Option Line :=
  let stripped := pyStrip line
  if stripped.isEmpty || stripped.head? = some '#' then none
  else if stripped.contains '=' then some (pyStrip (beforeEq stripped))
  else none

/-- Per-line result of the pass: a line whose parsed key is managed is
rewritten to `key=value\n`; every other line is preserved verbatim. -/
def rewriteLine (managed : List (Line × Line)) (line : Line) : Line :=
  match lineKeyOf line with
  | some k =>
    match alookup managed k with
    | some v => emitLine k v
    | none => line
  | none => line

/-- The managed keys satisfied during the pass, in order of occurrence
(with multiplicity; only membership is ever used). -/
def matchedKeys (managed : List (Line × Line)) (lines : List Line) : List Line :=
  lines.filterMap (fun line =>
    match lineKeyOf line with
    | some k => if (alookup managed k).isSome then some k else none
    | none => none)

/-- The claim C1 predicate on a line: blank, comment, no `'='`, or key not
in the managed mapping. -/
def untouchedLine (managed : List (Line × Line)) (line : Line) : Bool :=
  let stripped := pyStrip line
  stripped.isEmpty || stripped.head? = some '#' || !stripped.contains '=' ||
    (alookup managed (pyStrip (beforeEq stripped))).isNone

-- ## Characterizing the fold

theorem passStep_eq (managed : List (Line × Line)) (acc : List Line × List Line)
    (line : Line) :
    passStep managed acc line =
      (acc.1 ++ [rewriteLine managed line], acc.2 ++ matchedKeys managed [line]) := by
  simp only [passStep, rewriteLine, lineKeyOf, matchedKeys, List.filterMap]
  by_cases h1 : (pyStrip line).isEmpty = true
  · simp [h1]
  · by_cases h1' : (pyStrip line).head? = some '#'
    · simp [h1, h1']
    · by_cases h2 : '=' ∈ pyStrip line
      · cases h : alookup managed (pyStrip (beforeEq (pyStrip line))) <;>
          simp [h1, h1', h2, h]
      · simp [h1, h1', h2]

theorem matchedKeys_cons (managed : List (Line × Line)) (l : Line)
    (rest : List Line) :
    matchedKeys managed (l :: rest) =
      matchedKeys managed [l] ++ matchedKeys managed rest := by
  simp only [matchedKeys, List.filterMap_cons, List.filterMap_nil]
  cases lineKeyOf l with
  | none => simp
  | some k =>
    by_cases h : (alookup managed k).isSome <;> simp [h]

theorem foldl_passStep (managed : List (Line × Line)) (lines : List Line)
    (acc : List Line × List Line) :
    lines.foldl (passStep managed) acc =
      (acc.1 ++ lines.map (rewriteLine managed), acc.2 ++ matchedKeys managed lines) := by
  induction lines generalizing acc with
  | nil => simp [matchedKeys]
  | cons l rest ih =>
    rw [List.foldl_cons, passStep_eq, ih, matchedKeys_cons managed l rest]
    simp

/-- Structure of the patcher's output: the mapped pass followed by the
appended missing keys in the mapping's order. -/
theorem update_server_properties_lines_eq (managed : List (Line × Line))
    (lines : List Line) :
    update_server_properties_lines managed lines =
      lines.map (rewriteLine managed) ++
        (managed.filter
            (fun kv => !((matchedKeys managed lines).contains kv.1))).map
          (fun kv => emitLine kv.1 kv.2) := by
  unfold update_server_properties_lines
  rw [foldl_passStep]
  simp

theorem rewriteLine_of_untouched (managed : List (Line × Line)) (line : Line)
    (h : untouchedLine managed line = true) :
    rewriteLine managed line = line := by
  simp only [rewriteLine, lineKeyOf]
  by_cases h1 : (pyStrip line).isEmpty = true
  · simp [h1]
  · by_cases h1' : (pyStrip line).head? = some '#'
    · simp [h1, h1']
    · by_cases h2 : '=' ∈ pyStrip line
      · have h3 : (alookup managed (pyStrip (beforeEq (pyStrip line)))).isNone := by
          simp only [untouchedLine, Bool.or_eq_true, decide_eq_true_eq,
            List.elem_eq_mem, Bool.not_eq_true'] at h
          rcases h with ((h | h) | h) | h
          · exact absurd h h1
          · exact absurd h h1'
          · simp [h2] at h
          · exact h
        cases hl : alookup managed (pyStrip (beforeEq (pyStrip line))) with
        | none => simp [h1, h1', h2, hl]
        | some v => rw [hl] at h3; simp at h3
      · simp [h1, h1', h2]

theorem length_update_server_properties_lines (managed : List (Line × Line))
    (lines : List Line) :
    lines.length ≤ (update_server_properties_lines managed lines).length := by
  rw [update_server_properties_lines_eq]
  simp

/-- C1: every line of the input document that is blank, a comment, has no
`'='`, or whose trimmed key before the first `'='` is not in the managed
mapping, appears byte-for-byte unchanged at its original position in the
output of the properties patcher. -/
theorem C1_unmanaged_lines_preserved (managed : List (Line × Line))
    (lines : List Line) (i : Nat) (h : i < lines.length)
    (hu : untouchedLine managed lines[i] = true) :
    (update_server_properties_lines managed lines)[i]? = some lines[i] := by
  rw [update_server_properties_lines_eq]
  have hlen : i < (lines.map (rewriteLine managed)).length := by simpa using h
  rw [List.getElem?_append, if_pos hlen, List.getElem?_map, List.getElem?_eq_getElem h]
  simp [rewriteLine_of_untouched managed lines[i] hu]

/-- Witness for C1 at a concrete document and mapping. -/
theorem C1_unmanaged_lines_preserved_witness :
    (update_server_properties_lines [(str "resource-pack", str "v")]
        [str "# comment\n", str "server-port=25565\n"])[1]? =
      some (str "server-port=25565\n") := by
  exact C1_unmanaged_lines_preserved [(str "resource-pack", str "v")]
    [str "# comment\n", str "server-port=25565\n"] 1 (by decide) (by decide)

-- ## Association list facts

theorem alookup_mem (m : List (Line × Line)) (k v : Line)
    (h : alookup m k = some v) : (k, v) ∈ m := by
  induction m with
  | nil => simp [alookup] at h
  | cons kv rest ih =>
    obtain ⟨a, b⟩ := kv
    rw [alookup] at h
    by_cases ha : a = k
    · rw [if_pos ha] at h
      obtain rfl := ha
      obtain rfl : b = v := by simpa using h
      exact List.mem_cons_self _ _
    · rw [if_neg ha] at h
      exact List.mem_cons_of_mem _ (ih h)

theorem alookup_isSome_of_mem (m : List (Line × Line)) (k v : Line)
    (h : (k, v) ∈ m) : (alookup m k).isSome := by
  induction m with
  | nil => simp at h
  | cons kv rest ih =>
    obtain ⟨a, b⟩ := kv
    rw [alookup]
    by_cases ha : a = k
    · simp [ha]
    · rw [if_neg ha]
      rcases List.mem_cons.mp h with h | h
      · exact absurd (congrArg Prod.fst h).symm ha
      · exact ih h

theorem alookup_eq_of_nodup (m : List (Line × Line)) (k v : Line)
    (hnd : (m.map Prod.fst).Nodup) (h : (k, v) ∈ m) : alookup m k = some v := by
  induction m with
  | nil => simp at h
  | cons kv rest ih =>
    obtain ⟨a, b⟩ := kv
    rw [List.map_cons, List.nodup_cons] at hnd
    rw [alookup]
    rcases List.mem_cons.mp h with heq | h
    · obtain ⟨rfl, rfl⟩ := Prod.mk.inj heq.symm
      simp
    · by_cases ha : a = k
      · exfalso
        apply hnd.1
        rw [ha]
        exact List.mem_map.mpr ⟨(k, v), h, rfl⟩
      · rw [if_neg ha]
        exact ih hnd.2 h

-- ## Well-formed managed keys

/-- A managed key as the real `resource_pack_keys` keys are: nonempty,
without `'='`, already stripped, and not starting the line as a comment. -/
def niceKey (k : Line) : Prop :=
  k ≠ [] ∧ '=' ∉ k ∧ pyStrip k = k ∧ k.head? ≠ some '#'

instance (k : Line) : Decidable (niceKey k) := by
  unfold niceKey
  infer_instance

theorem dropWhile_eq_self_of_pyStrip (k : Line) (hk : pyStrip k = k) :
    k.dropWhile pyWS = k := by
  have h1 : (k.dropWhile pyWS).length ≤ k.length := (List.dropWhile_sublist pyWS).length_le
  have h2 : (pyStrip k).length ≤ (k.dropWhile pyWS).length := by
    unfold pyStrip
    calc ((k.dropWhile pyWS).reverse.dropWhile pyWS).reverse.length
        = ((k.dropWhile pyWS).reverse.dropWhile pyWS).length := List.length_reverse _
      _ ≤ (k.dropWhile pyWS).reverse.length := (List.dropWhile_sublist pyWS).length_le
      _ = (k.dropWhile pyWS).length := List.length_reverse _
  rw [hk] at h2
  exact (List.dropWhile_sublist pyWS).eq_of_length (Nat.le_antisymm h1 h2)

theorem dropWhile_reverse_eq_self_of_pyStrip (k : Line) (hk : pyStrip k = k) :
    k.reverse.dropWhile pyWS = k.reverse := by
  have h := dropWhile_eq_self_of_pyStrip k hk
  have h2 : (k.reverse.dropWhile pyWS).reverse = k := by
    conv_rhs => rw [← hk]
    unfold pyStrip
    rw [h]
  simpa using congrArg List.reverse h2

theorem pyStrip_emitLine (k v : Line) (hne : k ≠ []) (hk : pyStrip k = k) :
    pyStrip (emitLine k v) =
      k ++ '=' :: ((v ++ ['\n']).reverse.dropWhile pyWS).reverse := by
  have hdk : k.dropWhile pyWS = k := dropWhile_eq_self_of_pyStrip k hk
  have hleft : (k ++ '=' :: (v ++ ['\n'])).dropWhile pyWS =
      k ++ '=' :: (v ++ ['\n']) := by
    rw [List.dropWhile_append, hdk]
    rw [if_neg (by simpa using hne)]
  have hrev : (k ++ '=' :: (v ++ ['\n'])).reverse =
      (v ++ ['\n']).reverse ++ '=' :: k.reverse := by
    simp
  have hmid : ((v ++ ['\n']).reverse ++ '=' :: k.reverse).dropWhile pyWS =
      (v ++ ['\n']).reverse.dropWhile pyWS ++ '=' :: k.reverse := by
    rw [List.dropWhile_append]
    by_cases hemp : ((v ++ ['\n']).reverse.dropWhile pyWS).isEmpty = true
    · rw [if_pos hemp]
      have h0 : (v ++ ['\n']).reverse.dropWhile pyWS = [] := by simpa using hemp
      rw [h0, List.nil_append, List.dropWhile_cons_of_neg (by decide)]
    · rw [if_neg hemp]
  unfold pyStrip emitLine
  rw [hleft, hrev, hmid]
  simp

theorem lineKeyOf_emitLine (k v : Line) (h : niceKey k) :
    lineKeyOf (emitLine k v) = some k := by
  obtain ⟨hne, heq, hk, hh⟩ := h
  obtain ⟨c, t, rfl⟩ := List.exists_cons_of_ne_nil hne
  simp only [lineKeyOf]
  rw [pyStrip_emitLine (c :: t) v hne hk]
  have hc : c ≠ '#' := by
    intro hcontra
    exact hh (by rw [hcontra]; rfl)
  have hbe : beforeEq ((c :: t) ++ '=' ::
      ((v ++ ['\n']).reverse.dropWhile pyWS).reverse) = c :: t := by
    unfold beforeEq
    rw [List.takeWhile_append_of_pos (by
      intro a ha
      simp only [Bool.not_eq_true']
      simp only [decide_eq_false_iff_not]
      intro hcontra
      exact heq (hcontra ▸ ha))]
    rw [List.takeWhile_cons_of_neg (by simp)]
    simp
  rw [hbe, hk]
  simp [hc]

theorem rewriteLine_emitLine (managed : List (Line × Line)) (k v : Line)
    (hnice : niceKey k) (hl : alookup managed k = some v) :
    rewriteLine managed (emitLine k v) = emitLine k v := by
  simp only [rewriteLine, lineKeyOf_emitLine k v hnice, hl]

theorem rewriteLine_idem (managed : List (Line × Line))
    (hnice : ∀ kv ∈ managed, niceKey kv.1) (line : Line) :
    rewriteLine managed (rewriteLine managed line) = rewriteLine managed line := by
  cases hk : lineKeyOf line with
  | none => simp [rewriteLine, hk]
  | some k =>
    cases hv : alookup managed k with
    | none => simp [rewriteLine, hk, hv]
    | some v =>
      have hmem := alookup_mem managed k v hv
      have hn : niceKey k := hnice (k, v) hmem
      have h1 : rewriteLine managed line = emitLine k v := by
        simp [rewriteLine, hk, hv]
      rw [h1, rewriteLine_emitLine managed k v hn hv]

theorem matchedKeys_append (managed : List (Line × Line)) (l1 l2 : List Line) :
    matchedKeys managed (l1 ++ l2) =
      matchedKeys managed l1 ++ matchedKeys managed l2 := by
  unfold matchedKeys
  exact List.filterMap_append l1 l2 _

theorem matchedKeys_map_rewrite (managed : List (Line × Line))
    (hnice : ∀ kv ∈ managed, niceKey kv.1) (lines : List Line) :
    matchedKeys managed (lines.map (rewriteLine managed)) =
      matchedKeys managed lines := by
  unfold matchedKeys
  rw [List.filterMap_map]
  apply List.filterMap_congr
  intro line _
  cases hk : lineKeyOf line with
  | none => simp [Function.comp, rewriteLine, hk]
  | some k =>
    cases hv : alookup managed k with
    | none => simp [Function.comp, rewriteLine, hk, hv]
    | some v =>
      have hn : niceKey k := hnice (k, v) (alookup_mem managed k v hv)
      have h1 : rewriteLine managed line = emitLine k v := by
        simp [rewriteLine, hk, hv]
      simp [Function.comp, h1, lineKeyOf_emitLine k v hn, hk, hv]

theorem matchedKeys_emit_list (managed sub : List (Line × Line))
    (hnice : ∀ kv ∈ managed, niceKey kv.1)
    (hsub : ∀ kv ∈ sub, kv ∈ managed) :
    matchedKeys managed (sub.map (fun kv => emitLine kv.1 kv.2)) =
      sub.map Prod.fst := by
  induction sub with
  | nil => rfl
  | cons kv rest ih =>
    have hmem : kv ∈ managed := hsub kv (List.mem_cons_self _ _)
    have hn : niceKey kv.1 := hnice kv hmem
    have hsome : (alookup managed kv.1).isSome :=
      alookup_isSome_of_mem managed kv.1 kv.2 hmem
    rw [List.map_cons, List.map_cons]
    rw [show (emitLine kv.1 kv.2 :: rest.map (fun kv => emitLine kv.1 kv.2) : List Line) =
      [emitLine kv.1 kv.2] ++ rest.map (fun kv => emitLine kv.1 kv.2) from rfl]
    rw [matchedKeys_append]
    rw [ih (fun x hx => hsub x (List.mem_cons_of_mem _ hx))]
    have h1 : matchedKeys managed [emitLine kv.1 kv.2] = [kv.1] := by
      unfold matchedKeys
      simp [lineKeyOf_emitLine kv.1 kv.2 hn, hsome]
    rw [h1]
    rfl

-- ## Idempotence

theorem map_rewriteLine_emit_list (managed sub : List (Line × Line))
    (hnd : (managed.map Prod.fst).Nodup)
    (hnice : ∀ kv ∈ managed, niceKey kv.1)
    (hsub : ∀ kv ∈ sub, kv ∈ managed) :
    (sub.map (fun kv => emitLine kv.1 kv.2)).map (rewriteLine managed) =
      sub.map (fun kv => emitLine kv.1 kv.2) := by
  rw [List.map_map]
  apply List.map_congr_left
  intro kv hkv
  have hmem : kv ∈ managed := hsub kv hkv
  have hn : niceKey kv.1 := hnice kv hmem
  have hl : alookup managed kv.1 = some kv.2 := alookup_eq_of_nodup managed kv.1 kv.2 hnd hmem
  exact rewriteLine_emitLine managed kv.1 kv.2 hn hl

theorem idempotent_of_nice (managed : List (Line × Line)) (lines : List Line)
    (hnd : (managed.map Prod.fst).Nodup)
    (hnice : ∀ kv ∈ managed, niceKey kv.1) :
    update_server_properties_lines managed
        (update_server_properties_lines managed lines) =
      update_server_properties_lines managed lines := by
  have hout := update_server_properties_lines_eq managed lines
  set A := (managed.filter
      (fun kv => !((matchedKeys managed lines).contains kv.1))).map
    (fun kv => emitLine kv.1 kv.2) with hA
  rw [update_server_properties_lines_eq managed
    (update_server_properties_lines managed lines), hout]
  have hsubA : ∀ kv ∈ managed.filter
      (fun kv => !((matchedKeys managed lines).contains kv.1)), kv ∈ managed :=
    fun kv hkv => List.mem_of_mem_filter hkv
  have hmap : (lines.map (rewriteLine managed) ++ A).map (rewriteLine managed) =
      lines.map (rewriteLine managed) ++ A := by
    rw [List.map_append, List.map_map]
    have h1 : lines.map (rewriteLine managed ∘ rewriteLine managed) =
        lines.map (rewriteLine managed) := by
      apply List.map_congr_left
      intro l _
      exact rewriteLine_idem managed hnice l
    rw [h1, hA, map_rewriteLine_emit_list managed _ hnd hnice hsubA]
  rw [hmap]
  have hmk : matchedKeys managed (lines.map (rewriteLine managed) ++ A) =
      matchedKeys managed lines ++
        (managed.filter
            (fun kv => !((matchedKeys managed lines).contains kv.1))).map Prod.fst := by
    rw [matchedKeys_append, matchedKeys_map_rewrite managed hnice, hA,
      matchedKeys_emit_list managed _ hnice hsubA]
  have hfilter : managed.filter
      (fun kv => !((matchedKeys managed
        (lines.map (rewriteLine managed) ++ A)).contains kv.1)) = [] := by
    rw [List.filter_eq_nil_iff]
    intro kv hkv
    rw [hmk]
    simp only [Bool.not_eq_true', Bool.not_eq_false]
    have hmem : kv.1 ∈ matchedKeys managed lines ++
        (managed.filter
            (fun kv => !((matchedKeys managed lines).contains kv.1))).map Prod.fst := by
      by_cases hc : kv.1 ∈ matchedKeys managed lines
      · exact List.mem_append_left _ hc
      · have hmemf : kv ∈ managed.filter
            (fun kv => !((matchedKeys managed lines).contains kv.1)) := by
          rw [List.mem_filter]
          refine ⟨hkv, ?_⟩
          simp [hc]
        exact List.mem_append_right _ (List.mem_map.mpr ⟨kv, hmemf, rfl⟩)
    exact List.elem_eq_true_of_mem hmem
  rw [hfilter]
  simp

/-- C3 (counterexample): taken literally over every managed mapping,
idempotence fails: with the single managed key `"#key"` the appended line
`#key=v\n` is parsed as a comment on the second run, so the key is
appended again. -/
theorem C3_counterexample :
    update_server_properties_lines [(str "#key", str "v")]
        (update_server_properties_lines [(str "#key", str "v")] []) ≠
      update_server_properties_lines [(str "#key", str "v")] [] := by
  decide

/-- C3 (amended): the patch is idempotent for every document provided the
managed keys are distinct and each key is nonempty, contains no `'='`,
equals its stripped form and does not start with `'#'` — all satisfied by
the three keys `update_server_properties` actually manages. -/
theorem C3_idempotent (managed : List (Line × Line)) (lines : List Line)
    (hnd : (managed.map Prod.fst).Nodup)
    (hnice : ∀ kv ∈ managed, niceKey kv.1) :
    update_server_properties_lines managed
        (update_server_properties_lines managed lines) =
      update_server_properties_lines managed lines :=
  idempotent_of_nice managed lines hnd hnice

/-- Witness for C3 at the program's own key set shape. -/
theorem C3_idempotent_witness :
    update_server_properties_lines
        [(str "resource-pack", str "u"), (str "resource-pack-sha1", str "h"),
         (str "resource-pack-id", str "i")]
        (update_server_properties_lines
          [(str "resource-pack", str "u"), (str "resource-pack-sha1", str "h"),
           (str "resource-pack-id", str "i")]
          [str "# c\n", str "resource-pack=old\n"]) =
      update_server_properties_lines
        [(str "resource-pack", str "u"), (str "resource-pack-sha1", str "h"),
         (str "resource-pack-id", str "i")]
        [str "# c\n", str "resource-pack=old\n"] :=
  C3_idempotent
    [(str "resource-pack", str "u"), (str "resource-pack-sha1", str "h"),
     (str "resource-pack-id", str "i")]
    [str "# c\n", str "resource-pack=old\n"] (by decide) (by decide)

-- ## Counting managed lines

theorem emitLine_key_inj (k k' v v' : Line) (hk : '=' ∉ k) (hk' : '=' ∉ k')
    (h : emitLine k v = emitLine k' v') : k = k' := by
  have h2 := congrArg (List.takeWhile (fun c => !(c = '='))) h
  unfold emitLine at h2
  rw [List.takeWhile_append_of_pos (by
        intro a ha
        simp only [Bool.not_eq_true', decide_eq_false_iff_not]
        intro hcontra
        exact hk (hcontra ▸ ha)),
      List.takeWhile_append_of_pos (by
        intro a ha
        simp only [Bool.not_eq_true', decide_eq_false_iff_not]
        intro hcontra
        exact hk' (hcontra ▸ ha))] at h2
  rw [List.takeWhile_cons_of_neg (by simp), List.takeWhile_cons_of_neg (by simp)] at h2
  simpa using h2

theorem rewriteLine_eq_emit_iff (managed : List (Line × Line))
    (hnice : ∀ kv ∈ managed, niceKey kv.1) (k v line : Line)
    (hkv : alookup managed k = some v) :
    rewriteLine managed line = emitLine k v ↔ lineKeyOf line = some k := by
  have hnk : niceKey k := hnice (k, v) (alookup_mem managed k v hkv)
  constructor
  · intro h
    cases hl : lineKeyOf line with
    | none =>
      exfalso
      have hline : line = emitLine k v := by simpa [rewriteLine, hl] using h
      have h2 : lineKeyOf line = some k := by
        rw [hline]
        exact lineKeyOf_emitLine k v hnk
      rw [hl] at h2
      exact Option.noConfusion h2
    | some k' =>
      cases hv' : alookup managed k' with
      | none =>
        exfalso
        have hline : line = emitLine k v := by simpa [rewriteLine, hl, hv'] using h
        have h2 : lineKeyOf line = some k := by
          rw [hline]
          exact lineKeyOf_emitLine k v hnk
        rw [hl] at h2
        obtain rfl : k' = k := by simpa using h2
        rw [hkv] at hv'
        exact Option.noConfusion hv'
      | some v' =>
        have hnk' : niceKey k' := hnice (k', v') (alookup_mem managed k' v' hv')
        have hee : emitLine k' v' = emitLine k v := by
          simpa [rewriteLine, hl, hv'] using h
        obtain rfl : k = k' :=
          (emitLine_key_inj k' k v' v hnk'.2.1 hnk.2.1 hee).symm
        rfl
  · intro h
    simp [rewriteLine, h, hkv]

theorem mem_matchedKeys_iff (managed : List (Line × Line)) (lines : List Line)
    (k : Line) (hs : (alookup managed k).isSome) :
    k ∈ matchedKeys managed lines ↔
      0 < lines.countP (fun l => lineKeyOf l == some k) := by
  unfold matchedKeys
  rw [List.mem_filterMap, List.countP_pos_iff]
  constructor
  · rintro ⟨a, ha, hfa⟩
    refine ⟨a, ha, ?_⟩
    cases hl : lineKeyOf a with
    | none => rw [hl] at hfa; exact absurd hfa (by simp)
    | some k'' =>
      rw [hl] at hfa
      by_cases hss : (alookup managed k'').isSome
      · have hfa2 : some k'' = some k := by simpa [hss] using hfa
        obtain rfl : k'' = k := by simpa using hfa2
        simp [hl]
      · exfalso
        simp [hss] at hfa
  · rintro ⟨a, ha, hp⟩
    have hl : lineKeyOf a = some k := by simpa using hp
    exact ⟨a, ha, by simp [hl, hs]⟩

theorem count_key_managed_le_one (managed : List (Line × Line)) (k : Line)
    (hnd : (managed.map Prod.fst).Nodup) :
    managed.countP (fun kv => kv.1 == k) ≤ 1 := by
  induction managed with
  | nil => simp
  | cons kv rest ih =>
    rw [List.map_cons, List.nodup_cons] at hnd
    rw [List.countP_cons]
    by_cases hk : kv.1 = k
    · have h0 : rest.countP (fun kv => kv.1 == k) = 0 := by
        rw [List.countP_eq_zero]
        intro a ha hpa
        have ha1 : a.1 = k := by simpa using hpa
        apply hnd.1
        rw [hk, ← ha1]
        exact List.mem_map.mpr ⟨a, ha, rfl⟩
      rw [h0]
      split <;> simp
    · rw [if_neg (by simpa using hk)]
      simpa using ih hnd.2

theorem count_emit_update (managed : List (Line × Line)) (lines : List Line)
    (k v : Line) (hnd : (managed.map Prod.fst).Nodup)
    (hnice : ∀ kv ∈ managed, niceKey kv.1)
    (hkv : alookup managed k = some v) :
    (update_server_properties_lines managed lines).count (emitLine k v) =
      max (lines.countP (fun l => lineKeyOf l == some k)) 1 := by
  have hnk : niceKey k := hnice (k, v) (alookup_mem managed k v hkv)
  rw [update_server_properties_lines_eq, List.count_append]
  have hmap : (lines.map (rewriteLine managed)).count (emitLine k v) =
      lines.countP (fun l => lineKeyOf l == some k) := by
    rw [List.count_eq_countP, List.countP_map]
    apply List.countP_congr
    intro l _
    simp only [Function.comp_apply, beq_iff_eq]
    exact rewriteLine_eq_emit_iff managed hnice k v l hkv
  have happ : ((managed.filter
        (fun kv => !((matchedKeys managed lines).contains kv.1))).map
        (fun kv => emitLine kv.1 kv.2)).count (emitLine k v) =
      if k ∈ matchedKeys managed lines then 0 else 1 := by
    rw [List.count_eq_countP, List.countP_map]
    by_cases hm : k ∈ matchedKeys managed lines
    · rw [if_pos hm, List.countP_eq_zero]
      intro kv hkvf
      rw [List.mem_filter] at hkvf
      intro hcontra
      have hkeq : kv.1 = k :=
        emitLine_key_inj kv.1 k kv.2 v (hnice kv hkvf.1).2.1 hnk.2.1
          (by simpa using hcontra)
      have hnotm : kv.1 ∉ matchedKeys managed lines := by simpa using hkvf.2
      exact hnotm (hkeq ▸ hm)
    · rw [if_neg hm]
      have hfmem : (k, v) ∈ managed.filter
          (fun kv => !((matchedKeys managed lines).contains kv.1)) := by
        rw [List.mem_filter]
        exact ⟨alookup_mem managed k v hkv, by simpa using hm⟩
      have hge : 0 < (managed.filter
          (fun kv => !((matchedKeys managed lines).contains kv.1))).countP
          ((fun l => l == emitLine k v) ∘ fun kv => emitLine kv.1 kv.2) := by
        rw [List.countP_pos_iff]
        exact ⟨(k, v), hfmem, by simp⟩
      have hle : (managed.filter
          (fun kv => !((matchedKeys managed lines).contains kv.1))).countP
          ((fun l => l == emitLine k v) ∘ fun kv => emitLine kv.1 kv.2) ≤ 1 := by
        calc (managed.filter
              (fun kv => !((matchedKeys managed lines).contains kv.1))).countP
              ((fun l => l == emitLine k v) ∘ fun kv => emitLine kv.1 kv.2)
            ≤ managed.countP
              ((fun l => l == emitLine k v) ∘ fun kv => emitLine kv.1 kv.2) :=
              List.Sublist.countP_le _ (List.filter_sublist managed)
          _ ≤ managed.countP (fun kv => kv.1 == k) := by
              apply List.countP_mono_left
              intro kv hkvm hp
              have hkeq : kv.1 = k :=
                emitLine_key_inj kv.1 k kv.2 v (hnice kv hkvm).2.1 hnk.2.1
                  (by simpa using hp)
              simp [hkeq]
          _ ≤ 1 := count_key_managed_le_one managed k hnd
      omega
  rw [hmap, happ]
  by_cases hm : k ∈ matchedKeys managed lines
  · rw [if_pos hm]
    have hpos : 0 < lines.countP (fun l => lineKeyOf l == some k) :=
      (mem_matchedKeys_iff managed lines k (by simp [hkv])).mp hm
    omega
  · rw [if_neg hm]
    have hzero : ¬ 0 < lines.countP (fun l => lineKeyOf l == some k) :=
      fun hp => hm ((mem_matchedKeys_iff managed lines k (by simp [hkv])).mpr hp)
    omega

/-- C2 (counterexample): the patcher rewrites every occurrence of a managed
key, so when the input document contains the key twice the output contains
the `key=value` line twice, not exactly once. -/
theorem C2_counterexample :
    update_server_properties_lines [(str "resource-pack", str "v")]
        [str "resource-pack=a\n", str "resource-pack=b\n"] =
      [str "resource-pack=v\n", str "resource-pack=v\n"] ∧
    ¬ ((update_server_properties_lines [(str "resource-pack", str "v")]
        [str "resource-pack=a\n", str "resource-pack=b\n"]).count
          (str "resource-pack=v\n") = 1) := by
  exact ⟨by decide, by decide⟩

/-- C2 (amended): for a managed mapping with distinct, well-formed keys,
the line `key=value\n` occurs `max n 1` times in the output, where `n` is
the number of input lines parsing to that key — so exactly once when the
key occurs at most once in the input — and every input line parsing to the
key is rewritten to `key=value\n` in place. -/
theorem C2_managed_key_occurrences (managed : List (Line × Line))
    (lines : List Line) (k v : Line)
    (hnd : (managed.map Prod.fst).Nodup)
    (hnice : ∀ kv ∈ managed, niceKey kv.1)
    (hkv : alookup managed k = some v) :
    (update_server_properties_lines managed lines).count (emitLine k v) =
      max (lines.countP (fun l => lineKeyOf l == some k)) 1 ∧
    ∀ i, (h : i < lines.length) → lineKeyOf lines[i] = some k →
      (update_server_properties_lines managed lines)[i]? =
        some (emitLine k v) := by
  refine ⟨count_emit_update managed lines k v hnd hnice hkv, ?_⟩
  intro i h hkey
  rw [update_server_properties_lines_eq]
  have hlen : i < (lines.map (rewriteLine managed)).length := by simpa using h
  rw [List.getElem?_append, if_pos hlen, List.getElem?_map,
    List.getElem?_eq_getElem h]
  simp [rewriteLine, hkey, hkv]

/-- Witness for C2 (amended) at a concrete document with one occurrence. -/
theorem C2_managed_key_occurrences_witness :
    (update_server_properties_lines [(str "resource-pack", str "v")]
        [str "# c\n", str "resource-pack=old\n"]).count
      (emitLine (str "resource-pack") (str "v")) =
      max ([str "# c\n", str "resource-pack=old\n"].countP
        (fun l => lineKeyOf l == some (str "resource-pack"))) 1 :=
  (C2_managed_key_occurrences [(str "resource-pack", str "v")]
    [str "# c\n", str "resource-pack=old\n"] (str "resource-pack") (str "v")
    (by decide) (by decide) (by decide)).1

/-- C4: after the single pass, every managed key that was not satisfied is
appended at the end as a `key=value` line, in the mapping's iteration
order; on the spec's example the absent sha1 and id keys are appended in
that order while `resource-pack` is rewritten in place. -/
theorem C4_missing_keys_appended (managed : List (Line × Line))
    (lines : List Line) :
    (update_server_properties_lines managed lines =
      lines.map (rewriteLine managed) ++
        (managed.filter
            (fun kv => !((matchedKeys managed lines).contains kv.1))).map
          (fun kv => emitLine kv.1 kv.2)) ∧
    update_server_properties_lines
        [(str "resource-pack", str "new\\:url"),
         (str "resource-pack-sha1", str "abcd1234"),
         (str "resource-pack-id", str "11111111-1111-1111-1111-111111111111")]
        [str "# comment\n", str "\n", str "server-port=25565\n",
         str "resource-pack=old\n"] =
      [str "# comment\n", str "\n", str "server-port=25565\n",
       str "resource-pack=new\\:url\n", str "resource-pack-sha1=abcd1234\n",
       str "resource-pack-id=11111111-1111-1111-1111-111111111111\n"] :=
  ⟨update_server_properties_lines_eq managed lines, by decide⟩

-- ## Pack identity derivation (generate_pack_uuid, lines 633-640)
-- `uuid.uuid5(namespace, name)` is RFC 4122 name-based derivation:
-- SHA-1 over the namespace bytes followed by the UTF-8 name bytes, the
-- first 16 digest bytes with the version nibble set to 5 and the variant
-- bits to 10, rendered as lowercase hex in 8-4-4-4-12 form.

/-- 2^32, the SHA-1 word modulus. -/
def w32 : Nat := 4294967296

/-- 32-bit left rotation of a word. -/
def rotl32 (n x : Nat) : Nat := ((x <<< n) % w32) ||| (x >>> (32 - n))

/-- The SHA-1 round function (FIPS 180, `f_t`). -/
def sha1F (t b c d : Nat) : Nat :=
  if t < 20 then (b &&& c) ||| ((b ^^^ 4294967295) &&& d)
  else if t < 40 then b ^^^ c ^^^ d
  else if t < 60 then (b &&& c) ||| (b &&& d) ||| (c &&& d)
  else b ^^^ c ^^^ d

/-- The SHA-1 round constants (FIPS 180, `K_t`). -/
def sha1K (t : Nat) : Nat :=
  if t < 20 then 1518500249
  else if t < 40 then 1859775393
  else if t < 60 then 2400959708
  else 3395469782

/-- The `n` low-order bytes of `x`, big-endian. -/
def toBytesBE (n : Nat) (x : Nat) : List Nat :=
  match n with
  | 0 => []
  | n + 1 => toBytesBE n (x / 256) ++ [x % 256]

/-- Big-endian 4-byte groups to 32-bit words. -/
def bytesToWords : List Nat → List Nat
  | b0 :: b1 :: b2 :: b3 :: rest =>
    (((b0 * 256 + b1) * 256 + b2) * 256 + b3) :: bytesToWords rest
  | _ => []

/-- SHA-1 padding: a `0x80` byte, zeros to 56 mod 64, and the bit length
as an 8-byte big-endian integer. -/
def padMessage (m : List Nat) : List Nat :=
  m ++ [128] ++ List.replicate ((64 - ((m.length + 9) % 64)) % 64) 0 ++
    toBytesBE 8 (8 * m.length)

/-- Extend the 16 message words to the 80-entry schedule, one word per
unit of fuel (`W_t = rotl1 (W_{t-3} xor W_{t-8} xor W_{t-14} xor W_{t-16})`). -/
def extendW (w : List Nat) (fuel : Nat) : List Nat :=
  match fuel with
  | 0 => w
  | fuel + 1 =>
    let n := w.length
    extendW (w ++ [rotl32 1 ((w.getD (n - 3) 0) ^^^ (w.getD (n - 8) 0) ^^^
      (w.getD (n - 14) 0) ^^^ (w.getD (n - 16) 0))]) fuel

/-- One SHA-1 round on the state `(a, b, c, d, e)` with round index and
schedule word `tw`. -/
def sha1Round (st : Nat × Nat × Nat × Nat × Nat) (tw : Nat × Nat) :
    Nat × Nat × Nat × Nat × Nat :=
  ((rotl32 5 st.1 + sha1F tw.1 st.2.1 st.2.2.1 st.2.2.2.1 + st.2.2.2.2 +
      sha1K tw.1 + tw.2) % w32,
    st.1, rotl32 30 st.2.1, st.2.2.1, st.2.2.2.1)

/-- SHA-1 compression of one 64-byte block into the running state. -/
def sha1Compress (h : Nat × Nat × Nat × Nat × Nat) (block : List Nat) :
    Nat × Nat × Nat × Nat × Nat :=
  let f := (extendW (bytesToWords block) 64).enum.foldl sha1Round h
  ((h.1 + f.1) % w32, (h.2.1 + f.2.1) % w32, (h.2.2.1 + f.2.2.1) % w32,
    (h.2.2.2.1 + f.2.2.2.1) % w32, (h.2.2.2.2 + f.2.2.2.2) % w32)

/-- Split into 64-byte blocks; the fuel (always called with the list's
length, which bounds the block count) makes the recursion structural. -/
def chunks64 : Nat → List Nat → List (List Nat)
  | 0, _ => []
  | _, [] => []
  | fuel + 1, l => l.take 64 :: chunks64 fuel (l.drop 64)

/-- SHA-1 of a byte list: 20 digest bytes. -/
def sha1 (msg : List Nat) : List Nat :=
  let h := (chunks64 (padMessage msg).length (padMessage msg)).foldl sha1Compress
    (1732584193, 4023233417, 2562383102, 271733878, 3285377520)
  toBytesBE 4 h.1 ++ toBytesBE 4 h.2.1 ++ toBytesBE 4 h.2.2.1 ++
    toBytesBE 4 h.2.2.2.1 ++ toBytesBE 4 h.2.2.2.2

/-- UTF-8 encoding of one code point (Python `str.encode('utf-8')`). -/
def utf8Bytes (c : Char) : List Nat :=
  let n := c.toNat
  if n < 128 then [n]
  else if n < 2048 then [192 + n / 64, 128 + n % 64]
  else if n < 65536 then [224 + n / 4096, 128 + n / 64 % 64, 128 + n % 64]
  else [240 + n / 262144, 128 + n / 4096 % 64, 128 + n / 64 % 64, 128 + n % 64]

/-- UTF-8 encoding of a string. -/
def encodeUtf8 (s : Line) : List Nat := s.flatMap utf8Bytes

/-- Lowercase hex digit for a value below 16. -/
def hexDigitChar (n : Nat) : Char :=
  if n < 10 then Char.ofNat (48 + n) else Char.ofNat (87 + n)

/-- Two lowercase hex digits of a byte. -/
def byteHex (b : Nat) : List Char :=
  [hexDigitChar (b / 16 % 16), hexDigitChar (b % 16)]

/-- The 16 bytes of `uuid.NAMESPACE_DNS`
(6ba7b810-9dad-11d1-80b4-00c04fd430c8). -/
def NAMESPACE_DNS : List Nat :=
  [107, 167, 184, 16, 157, 173, 17, 209, 128, 180, 0, 192, 79, 212, 48, 200]

/-- `str(uuid.uuid5(ns, name))`: SHA-1 of namespace plus name bytes, first
16 bytes, version nibble forced to 5 and variant bits to 10, rendered
8-4-4-4-12 in lowercase hex. -/
def uuid5 (ns : List Nat) (name : List Nat) : List Char :=
  let d := sha1 (ns ++ name)
  byteHex (d.getD 0 0) ++ byteHex (d.getD 1 0) ++ byteHex (d.getD 2 0) ++
    byteHex (d.getD 3 0) ++ ['-'] ++
  byteHex (d.getD 4 0) ++ byteHex (d.getD 5 0) ++ ['-'] ++
  byteHex (d.getD 6 0 % 16 + 80) ++ byteHex (d.getD 7 0) ++ ['-'] ++
  byteHex (d.getD 8 0 % 64 + 128) ++ byteHex (d.getD 9 0) ++ ['-'] ++
  byteHex (d.getD 10 0) ++ byteHex (d.getD 11 0) ++ byteHex (d.getD 12 0) ++
    byteHex (d.getD 13 0) ++ byteHex (d.getD 14 0) ++ byteHex (d.getD 15 0)

/-- `generate_pack_uuid` (src/build_resource_pack.py lines 633-640):
`str(uuid.uuid5(uuid.NAMESPACE_DNS, f"bitterharvest-pack-{hash_str}"))`. -/
def generate_pack_uuid (hash_str : Line) : Line :=
  uuid5 NAMESPACE_DNS (encodeUtf8 (str "bitterharvest-pack-" ++ hash_str))

-- ## The full update_server_properties operation (lines 643-708)

/-- `url.replace(':', '\\:')` (line 659). -/
def escapeColons (url : Line) : Line :=
  url.flatMap (fun c => if c = ':' then ['\\', ':'] else [c])

/-- The `resource_pack_keys` mapping (lines 662-666), in insertion order. -/
def resource_pack_keys (url hash_str : Line) : List (Line × Line) :=
  [(str "resource-pack", escapeColons url),
   (str "resource-pack-sha1", hash_str),
   (str "resource-pack-id", generate_pack_uuid hash_str)]

/-- Filesystem-level behavior of `update_server_properties` (lines
643-708): the state is the optional contents of the properties file
(`none` = file missing).  A missing file returns `False` with no write;
otherwise the whole in-memory transformation is computed and written back
as one state change, and `True` is returned. -/
def update_server_properties (fs : Option (List Line)) (url hash_str : Line) :
    Option (List Line) × Bool :=
  match fs with
  | none => (none, false)
  | some lines =>
    (some (update_server_properties_lines (resource_pack_keys url hash_str) lines),
      true)

-- ## Shape of the derived identifier

theorem hexDigitChar_ne_hyphen : ∀ m < 16, hexDigitChar m ≠ '-' := by decide

theorem count_hyphen_byteHex (b : Nat) : (byteHex b).count '-' = 0 := by
  have h1 := hexDigitChar_ne_hyphen (b / 16 % 16) (Nat.mod_lt _ (by decide))
  have h2 := hexDigitChar_ne_hyphen (b % 16) (Nat.mod_lt _ (by decide))
  simp [byteHex, List.count_cons, h1, h2]

theorem uuid5_length (ns name : List Nat) : (uuid5 ns name).length = 36 := by
  simp [uuid5, byteHex]

theorem uuid5_count_hyphen (ns name : List Nat) :
    (uuid5 ns name).count '-' = 4 := by
  simp [uuid5, List.count_append, count_hyphen_byteHex]

/-- C5: identity derivation is a pure deterministic function; it is the
version-5 (SHA-1, NAMESPACE_DNS) UUID of the name obtained by prefixing
the hash with `bitterharvest-pack-`, and every result is a 36-character
string containing exactly four hyphens. -/
theorem C5_identity_derivation (h : Line) :
    generate_pack_uuid h = generate_pack_uuid h ∧
    generate_pack_uuid h =
      uuid5 NAMESPACE_DNS (encodeUtf8 (str "bitterharvest-pack-" ++ h)) ∧
    (generate_pack_uuid h).length = 36 ∧
    (generate_pack_uuid h).count '-' = 4 :=
  ⟨rfl, rfl, uuid5_length _ _, uuid5_count_hyphen _ _⟩

-- ## Distinctness of identifiers

theorem char_toNat_inj (c1 c2 : Char) (h : c1.toNat = c2.toNat) : c1 = c2 := by
  have h2 := congrArg Char.ofNat h
  simpa [Char.ofNat_toNat] using h2

/-- Encode a 36-character line as a function into a finite type. -/
def uuidCode (l : Line) : Fin 36 → Fin UInt32.size :=
  fun i => ⟨(l.getD i 'a').toNat, UInt32.toNat_lt_size _⟩

theorem eq_of_uuidCode_eq (l1 l2 : Line) (h1 : l1.length = 36)
    (h2 : l2.length = 36) (h : uuidCode l1 = uuidCode l2) : l1 = l2 := by
  apply List.ext_getElem (h1.trans h2.symm)
  intro i hi1 hi2
  have hfin : i < 36 := h1 ▸ hi1
  have hv : (l1.getD i 'a').toNat = (l2.getD i 'a').toNat :=
    congrArg Fin.val (congrFun h ⟨i, hfin⟩)
  have hg : l1.getD i 'a' = l2.getD i 'a' := char_toNat_inj _ _ hv
  rw [List.getD_eq_getElem?_getD, List.getD_eq_getElem?_getD,
    List.getElem?_eq_getElem hi1, List.getElem?_eq_getElem hi2] at hg
  simpa using hg

/-- C6 (counterexample): literal injectivity over all hash strings is
impossible — the outputs form a finite set (36-character strings over a
finite alphabet) while the inputs do not, so by pigeonhole two distinct
hashes share an identifier (concretely exhibited only by a SHA-1
collision, which is why the spec itself hedges with "practically"). -/
theorem C6_counterexample :
    ¬ (∀ h1 h2 : Line, h1 ≠ h2 →
        generate_pack_uuid h1 ≠ generate_pack_uuid h2) := by
  intro hinj
  obtain ⟨x, y, hxy, heq⟩ :=
    Finite.exists_ne_map_eq_of_infinite
      (fun h : Line => uuidCode (generate_pack_uuid h))
  exact hinj x y hxy
    (eq_of_uuidCode_eq _ _ (uuid5_length _ _) (uuid5_length _ _) heq)

set_option maxRecDepth 1000000 in
/-- C6 (amended): distinct hashes yield distinct identifiers on concrete
sample inputs (as the spec's "for any reasonable sample set"); this holds
except at SHA-1 collisions. -/
theorem C6_distinct_on_sample :
    generate_pack_uuid (str "abc123") ≠ generate_pack_uuid (str "deadbeef") ∧
    generate_pack_uuid (str "abc123") ≠ generate_pack_uuid (str "ABC123") :=
  ⟨by decide, by decide⟩

/-- C7: a missing properties file makes the operation fail with `False`
before any patching logic, leaving the state unchanged; in every other
case there is no error condition — the full in-memory transformation runs
(malformed lines pass through it unchanged) and the whole file is replaced
in one state change. -/
theorem C7_error_handling (fs : Option (List Line)) (url hash_str : Line) :
    (fs = none → update_server_properties fs url hash_str = (fs, false)) ∧
    (∀ d, fs = some d → update_server_properties fs url hash_str =
      (some (update_server_properties_lines (resource_pack_keys url hash_str) d),
        true)) := by
  constructor
  · rintro rfl
    rfl
  · rintro d rfl
    rfl

/-- Witness for C7: a missing file is reported and nothing is written. -/
theorem C7_error_handling_witness :
    update_server_properties none (str "http://x") (str "ab") = (none, false) :=
  (C7_error_handling none (str "http://x") (str "ab")).1 rfl

/-- C8: the value enforced for `resource-pack` is the URL with every `':'`
replaced by `'\:'`, while the sha1 and id values are used verbatim; the
escaping replaces each colon and leaves every other character alone. -/
theorem C8_pre_escaping (url hash_str : Line) :
    alookup (resource_pack_keys url hash_str) (str "resource-pack") =
      some (escapeColons url) ∧
    alookup (resource_pack_keys url hash_str) (str "resource-pack-sha1") =
      some hash_str ∧
    alookup (resource_pack_keys url hash_str) (str "resource-pack-id") =
      some (generate_pack_uuid hash_str) ∧
    (∀ a b : Line, escapeColons (a ++ b) = escapeColons a ++ escapeColons b) ∧
    escapeColons [':'] = ['\\', ':'] ∧
    (∀ c : Char, c ≠ ':' → escapeColons [c] = [c]) := by
  refine ⟨?_, ?_, ?_, ?_, rfl, ?_⟩
  · rw [resource_pack_keys, alookup, if_pos rfl]
  · rw [resource_pack_keys, alookup, if_neg (by decide), alookup, if_pos rfl]
  · rw [resource_pack_keys, alookup, if_neg (by decide), alookup,
      if_neg (by decide), alookup, if_pos rfl]
  · intro a b
    simp [escapeColons]
  · intro c hc
    simp [escapeColons, hc]

/-- Witness for C8: a non-colon character is kept and the `resource-pack`
entry holds the escaped URL. -/
theorem C8_pre_escaping_witness :
    escapeColons ['a'] = ['a'] ∧
    alookup (resource_pack_keys (str "http://x") (str "ab"))
        (str "resource-pack") = some (escapeColons (str "http://x")) :=
  ⟨(C8_pre_escaping (str "http://x") (str "ab")).2.2.2.2.2 'a' (by decide),
   (C8_pre_escaping (str "http://x") (str "ab")).1⟩

-- ## Stripping is idempotent (for C9)

theorem dropWhile_head_not (p : Char → Bool) (l : List Char) (c : Char)
    (rest : List Char) (h : l.dropWhile p = c :: rest) : p c = false := by
  induction l with
  | nil => simp at h
  | cons a l ih =>
    rw [List.dropWhile_cons] at h
    by_cases hpa : p a
    · rw [if_pos hpa] at h
      exact ih h
    · rw [if_neg hpa] at h
      obtain rfl : a = c := (List.cons.injEq .. ▸ h).1
      exact Bool.not_eq_true _ ▸ hpa

theorem dropWhile_dropWhile (p : Char → Bool) (l : List Char) :
    (l.dropWhile p).dropWhile p = l.dropWhile p := by
  cases h : l.dropWhile p with
  | nil => rfl
  | cons c rest =>
    have hc := dropWhile_head_not p l c rest h
    rw [List.dropWhile_cons_of_neg (by simp [hc])]

theorem pyStrip_idem (s : Line) : pyStrip (pyStrip s) = pyStrip s := by
  unfold pyStrip
  cases hX : (s.dropWhile pyWS).reverse.dropWhile pyWS with
  | nil => simp
  | cons c t =>
    have hXdrop : ((c :: t : Line).dropWhile pyWS) = c :: t := by
      rw [← hX]
      exact dropWhile_dropWhile pyWS (s.dropWhile pyWS).reverse
    have hrevX : ((c :: t : Line).reverse.reverse) = c :: t := by
      simp
    -- head of (c :: t).reverse.reverse is the head of the left-stripped s
    have hsubX : (c :: t : Line) <:+ (s.dropWhile pyWS).reverse := by
      rw [← hX]
      exact List.dropWhile_suffix pyWS
    have hpre : (c :: t : Line).reverse <+: s.dropWhile pyWS := by
      have h2 := hsubX.reverse
      simpa using h2
    have hfront : (s.dropWhile pyWS).dropWhile pyWS = s.dropWhile pyWS :=
      dropWhile_dropWhile pyWS s
    have hdropRevX : ((c :: t : Line).reverse).dropWhile pyWS = (c :: t).reverse := by
      cases hr : ((c : Char) :: t).reverse with
      | nil => simp at hr
      | cons d u =>
        obtain ⟨w, hw⟩ := hpre
        rw [hr] at hw
        have hd : pyWS d = false := by
          apply dropWhile_head_not pyWS s d (u ++ w)
          rw [← hw]
          simp
        rw [List.dropWhile_cons_of_neg (by simp [hd])]
    rw [hdropRevX]
    rw [List.reverse_reverse, hXdrop]

/-- C9: every managed line the patcher emits — rewritten in place or
appended — is exactly `key=value` followed by a newline, with the key in
trimmed form; original leading whitespace, whitespace around `'='` and a
missing trailing newline are not preserved, and emitted lines always end
with a newline. -/
theorem C9_emitted_line_shape (managed : List (Line × Line)) (line k v : Line)
    (hk : lineKeyOf line = some k) (hv : alookup managed k = some v) :
    rewriteLine managed line = emitLine k v ∧
    pyStrip k = k ∧
    (emitLine k v).getLast? = some '\n' ∧
    rewriteLine [(str "resource-pack", str "URL")]
        (str "  resource-pack = old") = str "resource-pack=URL\n" := by
  refine ⟨by simp [rewriteLine, hk, hv], ?_, ?_, by decide⟩
  · unfold lineKeyOf at hk
    by_cases h1 : (pyStrip line).isEmpty = true
    · simp [h1] at hk
    · by_cases h1' : (pyStrip line).head? = some '#'
      · simp [h1, h1'] at hk
      · by_cases h2 : '=' ∈ pyStrip line
        · have hkeq : k = pyStrip (beforeEq (pyStrip line)) := by
            simp [h1, h1', h2] at hk
            exact hk.symm
          rw [hkeq]
          exact pyStrip_idem _
        · simp [h1, h1', h2] at hk
  · have hsplit : emitLine k v = (k ++ '=' :: v) ++ ['\n'] := by
      simp [emitLine]
    rw [hsplit, List.getLast?_concat]

/-- Witness for C9: a padded key line without trailing newline is
normalized to the exact `key=value` line with newline. -/
theorem C9_emitted_line_shape_witness :
    rewriteLine [(str "resource-pack", str "URL")]
        (str "  resource-pack = old") =
      emitLine (str "resource-pack") (str "URL") :=
  (C9_emitted_line_shape [(str "resource-pack", str "URL")]
    (str "  resource-pack = old") (str "resource-pack") (str "URL")
    (by decide) (by decide)).1

-- ## Escaping is not idempotent

theorem escapeColons_cons (c : Char) (t : Line) :
    escapeColons (c :: t) =
      (if c = ':' then ['\\', ':'] else [c]) ++ escapeColons t := by
  simp [escapeColons]

theorem escapeColons_length (s : Line) :
    (escapeColons s).length = s.length + s.count ':' := by
  induction s with
  | nil => rfl
  | cons c t ih =>
    rw [escapeColons_cons, List.length_append, ih, List.count_cons]
    by_cases hc : c = ':'
    · simp only [hc, if_true, beq_self_eq_true]
      simp
      omega
    · rw [if_neg hc]
      have hbeq : (c == ':') = false := by simp [hc]
      simp [hbeq]
      omega

theorem escapeColons_count_colon (s : Line) :
    (escapeColons s).count ':' = s.count ':' := by
  induction s with
  | nil => rfl
  | cons c t ih =>
    rw [escapeColons_cons, List.count_append, ih, List.count_cons]
    by_cases hc : c = ':'
    · rw [if_pos hc]
      have h1 : (['\\', ':'] : Line).count ':' = 1 := by decide
      rw [h1]
      simp [hc]
      omega
    · rw [if_neg hc]
      have hbeq : (c == ':') = false := by simp [hc]
      simp [List.count_cons, hbeq]

/-- C10: colon-escaping is not idempotent: for every URL containing a
colon, escaping the already-escaped URL yields a different string (each
`\:` becomes `\\:`), so re-running the patcher on a value read back from
an escaped file double-escapes it. -/
theorem C10_escaping_not_idempotent (url : Line) (h : ':' ∈ url) :
    escapeColons (escapeColons url) ≠ escapeColons url ∧
    escapeColons (escapeColons [':']) = ['\\', '\\', ':'] := by
  refine ⟨?_, by decide⟩
  intro hcontra
  have hlen := congrArg List.length hcontra
  rw [escapeColons_length (escapeColons url), escapeColons_count_colon] at hlen
  have hpos : 0 < url.count ':' := List.count_pos_iff.mpr h
  omega

/-- Witness for C10 on a concrete URL. -/
theorem C10_escaping_not_idempotent_witness :
    escapeColons (escapeColons (str "http://x")) ≠
      escapeColons (str "http://x") :=
  (C10_escaping_not_idempotent (str "http://x") (by decide)).1
